import Mathlib

/-!
Shallow embedding of the cricket live-score scraper (src/main.py) and proofs
about its incremental-update pipeline.

The pipeline per poll cycle (function `main`, lines 104-216 of src/main.py):
fetch the page, extract a score string and a list of (over-number text,
commentary text) rows, classify each row, deduplicate against the run-wide
`seen_commentaries` set, filter by the `highest_over_seen` watermark, and
notify (at most once per cycle) for the admitted row of maximal parsed over.

HTML parsing (BeautifulSoup selectors, lines 136-175) and the HTTP transport
are upstream of the embedding: a cycle's input is the already-extracted score
string and the list of rows, in document order. The run-wide mutable state
(`seen_commentaries`, `highest_over_seen`, `last_sent_over`) is carried
explicitly. Python's `set` is modelled as a duplicate-free list in insertion
order (keys are only added after a membership test, so insertion order is
well defined); Python floats are modelled as rationals.
-/

namespace Cricket

/-- One extracted commentary row: the over-number text paired with the full
commentary text (src/main.py lines 170-175, after the BeautifulSoup zip). -/
structure Row where
  over_num : String
  commentary_text : String
deriving DecidableEq

/-- `isPrefixChars needle text`: does `needle` start `text`?  (Helper for the
Python substring operator `in`.) -/
def isPrefixChars : List Char → List Char → Bool
  | [], _ => true
  | _ :: _, [] => false
  | a :: as, b :: bs => (a = b) && isPrefixChars as bs

/-- `containsSub needle text`: Python's `needle in text` on strings, as a
scan over the character list. -/
def containsSub (needle : List Char) : List Char → Bool
  | [] => isPrefixChars needle []
  | c :: rest => isPrefixChars needle (c :: rest) || containsSub needle rest

/-- `hasSub pat text`: the Python test `pat in text` for a literal pattern. -/
def hasSub (pat : String) (text : List Char) : Bool :=
  containsSub pat.data text

/-- Lower-cased character list of a Python string (`commentary_text.lower()`);
the commentary and all patterns are ASCII, where `Char.toLower` agrees with
Python's `str.lower`. -/
def lowerChars (s : String) : List Char :=
  s.data.map Char.toLower

/-- `extract_result` (src/main.py lines 54-79): classify a commentary text by
testing substrings of the lower-cased text in the source's fixed order, first
match winning. -/
def extract_result (commentary_text : String) : String :=
  let text := lowerChars commentary_text
  if hasSub "wicket" text || hasSub "out" text then "wicket"
  else if hasSub "no run" text then "dot"
  else if hasSub "1 run" text then "1 run"
  else if hasSub "2 run" text then "2 runs"
  else if hasSub "3 run" text then "3 runs"
  else if hasSub "four" text || hasSub "4 runs" text then "4"
  else if hasSub "six" text || hasSub "6 runs" text then "6"
  else if hasSub "wide" text then "wide"
  else if hasSub "no ball" text then "no ball"
  else if hasSub "bye" text then "bye"
  else if hasSub "leg bye" text then "leg bye"
  else "event"

/-- Split a character list at `'.'` separators (helper for the decimal parse;
mirrors Python's reading of a float literal's integer and fractional parts). -/
def splitDot : List Char → List (List Char)
  | [] => [[]]
  | c :: rest =>
    if c = '.' then [] :: splitDot rest
    else
      match splitDot rest with
      | [] => [[c]]
      | g :: gs => (c :: g) :: gs

/-- Numeric value of a digit string. -/
def digitsVal (cs : List Char) : Nat :=
  cs.foldl (fun n c => 10 * n + (c.toNat - 48)) 0

/-- The successful outcomes of Python's `float(over_num)` on the over-number
texts: an optional sign, then digits with at most one decimal point and at
least one digit.  A whole part `w` and fractional part `f` denote the
rational `±(w·10^|f| + f) / 10^|f|`, i.e. the exact decimal value.
(Scientific notation, infinities, surrounding whitespace and digit-group
underscores do not occur in over numbers and are not modelled.)  `none`
models `float` raising `ValueError`. -/
def parseFloat? (s : String) : Option ℚ :=
  let signBody : Int × List Char :=
    match s.data with
    | '-' :: rest => (-1, rest)
    | '+' :: rest => (1, rest)
    | cs => (1, cs)
  match splitDot signBody.2 with
  | [w] =>
    if w ≠ [] ∧ w.all Char.isDigit then
      some (mkRat (signBody.1 * (digitsVal w : Int)) 1)
    else none
  | [w, f] =>
    if (w ≠ [] ∨ f ≠ []) ∧ w.all Char.isDigit ∧ f.all Char.isDigit then
      some (mkRat (signBody.1 * ((digitsVal w * 10 ^ f.length + digitsVal f : Nat) : Int))
        (10 ^ f.length))
    else none
  | _ => none

/-- `over_to_float` (src/main.py lines 81-85): numeric coercion of the
over-number text, with sentinel `-1` on any parse failure. -/
def over_to_float (over_num : String) : ℚ :=
  match parseFloat? over_num with
  | some q => q
  | none => -1

/-- One admitted commentary event, as appended to `new_commentaries`
(src/main.py lines 187-192). -/
structure Commentary where
  over : String
  commentary : String
  result : String
  score : String
deriving DecidableEq

/-- Parsed position of an admitted event. -/
def pos (e : Commentary) : ℚ :=
  over_to_float e.over

/-- The cross-cycle state of a run (src/main.py lines 118-120). -/
structure RunState where
  seen_commentaries : List String
  highest_over_seen : ℚ
  last_sent_over : Option String
deriving DecidableEq

/-- The initial run state (src/main.py lines 118-120): empty dedup set,
watermark at the sentinel `-1`, nothing notified yet. -/
def initialState : RunState :=
  { seen_commentaries := [], highest_over_seen := -1, last_sent_over := none }

/-- The state threaded through one cycle's row loop (src/main.py lines
163-194): the dedup set and watermark being updated in place, plus this
cycle's `new_commentaries` list and `new_commentary_found` flag. -/
structure CycleState where
  seen_commentaries : List String
  highest_over_seen : ℚ
  new_commentaries : List Commentary
  new_commentary_found : Bool
deriving DecidableEq

/-- The identity key `f"{over_num} - {commentary_text[:50]}"` of a row
(src/main.py line 176). -/
def commentary_id (r : Row) : String :=
  r.over_num ++ " - " ++ String.mk (r.commentary_text.data.take 50)

/-- Processing of one row inside a cycle (src/main.py lines 176-194): skip if
the identity key was seen; skip if classified `"event"` or the over text is
`"N/A"`; raise the watermark to the parsed over if greater; skip if the
parsed over is below the (raised) watermark; otherwise admit: record the
event with the cycle's score, remember the key, set the found flag. -/
def processRow (current_score : String) (s : CycleState) (r : Row) : CycleState :=
  let cid := commentary_id r
  if cid ∈ s.seen_commentaries then s
  else
    let result := extract_result r.commentary_text
    if result = "event" ∨ r.over_num = "N/A" then s
    else
      let over_float := over_to_float r.over_num
      let highest := if over_float > s.highest_over_seen then over_float else s.highest_over_seen
      if over_float < highest then { s with highest_over_seen := highest }
      else
        { seen_commentaries := s.seen_commentaries ++ [cid]
          highest_over_seen := highest
          new_commentaries := s.new_commentaries ++
            [{ over := r.over_num, commentary := r.commentary_text,
               result := result, score := current_score }]
          new_commentary_found := true }

/-- The row loop of one cycle (src/main.py lines 163-194), starting from the
run state with an empty `new_commentaries` list and a cleared found flag. -/
def processRows (current_score : String) (s : RunState) (rows : List Row) : CycleState :=
  rows.foldl (processRow current_score)
    { seen_commentaries := s.seen_commentaries
      highest_over_seen := s.highest_over_seen
      new_commentaries := []
      new_commentary_found := false }

/-- Python's `max(e :: es, key=lambda x: over_to_float(x["over"]))`
(src/main.py line 196): the first element of maximal key, since `max` only
replaces its running best on a strictly greater key. -/
def maxByOver (e : Commentary) (es : List Commentary) : Commentary :=
  es.foldl (fun best x => if over_to_float x.over > over_to_float best.over then x else best) e

/-- The bounded-eviction rule (src/main.py lines 209-210): once the dedup set
exceeds 1000 keys, retain 500 of them.  `list(seen)[-500:]` keeps 500
elements of the set's unspecified iteration order; the model keeps the last
500 in insertion order. -/
def evict (seen : List String) : List String :=
  if seen.length > 1000 then seen.drop (seen.length - 500) else seen

/-- One full poll cycle after extraction (src/main.py lines 163-210): run the
row loop, then — when the found flag is set and `new_commentaries` is
nonempty — take the max-by-over event, and if its over text differs from
`last_sent_over`, dispatch it to Discord (only when enabled) and update
`last_sent_over`; finally apply the eviction rule.  Returns the new run
state and the list of notifications dispatched this cycle (the announced
event; the formatted message of line 203 is a function of it). -/
def runCycle (discord_enabled : Bool) (current_score : String) (rows : List Row)
    (s : RunState) : RunState × List Commentary :=
  let c := processRows current_score s rows
  let gate : Option String × List Commentary :=
    match c.new_commentaries, c.new_commentary_found with
    | e :: es, true =>
      let latest := maxByOver e es
      if s.last_sent_over ≠ some latest.over then
        (some latest.over, if discord_enabled then [latest] else [])
      else (s.last_sent_over, [])
    | _, _ => (s.last_sent_over, [])
  ({ seen_commentaries := evict c.seen_commentaries
     highest_over_seen := c.highest_over_seen
     last_sent_over := gate.1 }, gate.2)

/-- Input of one cycle, as produced by the extractors from one fetched
document: the score string (src/main.py lines 137-162) and the commentary
rows in document order (lines 163-175). -/
structure CycleInput where
  current_score : String
  rows : List Row
deriving DecidableEq

/-- A run: the poll loop over a list of fetched documents. -/
def runCycles (discord_enabled : Bool) (s : RunState) : List CycleInput → RunState
  | [] => s
  | c :: cs => runCycles discord_enabled (runCycle discord_enabled c.current_score c.rows s).1 cs

/-- All events admitted over a run, in admission order (each cycle's
`new_commentaries`, concatenated). -/
def runTrace (discord_enabled : Bool) (s : RunState) : List CycleInput → List Commentary
  | [] => []
  | c :: cs =>
    (processRows c.current_score s c.rows).new_commentaries ++
      runTrace discord_enabled (runCycle discord_enabled c.current_score c.rows s).1 cs

/-- The retry loop of `fetch_page` (src/main.py lines 87-102).  `attempts i`
is the outcome of the `i`-th HTTP GET: `some text` on success, `none` on a
`RequestException`.  Returns the fetched text (or `none` after exhausting
the retries) and the back-off sleeps performed, in order. -/
def fetch_loop (attempts : Nat → Option String) (max_retries : Nat)
    (attempt retry_delay : Nat) : Option String × List Nat :=
  if attempt < max_retries then
    match attempts attempt with
    | some text => (some text, [])
    | none =>
      if attempt < max_retries - 1 then
        let rest := fetch_loop attempts max_retries (attempt + 1) (retry_delay * 2)
        (rest.1, retry_delay :: rest.2)
      else (none, [])
  else (none, [])
termination_by max_retries - attempt

/-- `fetch_page` (src/main.py lines 87-102): up to `max_retries = 3`
attempts, initial back-off `retry_delay = 2`, doubling after each failure. -/
def fetch_page (attempts : Nat → Option String) : Option String × List Nat :=
  fetch_loop attempts 3 0 2

/-! ### Substring lemmas for the classifier -/

theorem containsSub_of_isPrefixChars_append (pre nd : List Char) :
    ∀ t, isPrefixChars (pre ++ nd) t = true → containsSub nd t = true := by
  induction pre with
  | nil =>
    intro t h
    cases t with
    | nil => simpa [containsSub] using h
    | cons c rest =>
      simp only [containsSub, Bool.or_eq_true]
      exact Or.inl h
  | cons c cs ih =>
    intro t h
    cases t with
    | nil => simp [isPrefixChars] at h
    | cons d ds =>
      simp only [List.cons_append, isPrefixChars, Bool.and_eq_true, decide_eq_true_eq] at h
      have hrec := ih ds h.2
      simp only [containsSub, Bool.or_eq_true]
      exact Or.inr hrec

theorem containsSub_drop_front (pre nd : List Char) :
    ∀ t, containsSub (pre ++ nd) t = true → containsSub nd t = true := by
  intro t
  induction t with
  | nil =>
    intro h
    exact containsSub_of_isPrefixChars_append pre nd [] (by simpa [containsSub] using h)
  | cons c rest ih =>
    intro h
    have h' : isPrefixChars (pre ++ nd) (c :: rest) = true ∨ containsSub (pre ++ nd) rest = true := by
      simpa only [containsSub, Bool.or_eq_true] using h
    rcases h' with h' | h'
    · exact containsSub_of_isPrefixChars_append pre nd _ h'
    · have hrec := ih h'
      simp only [containsSub, Bool.or_eq_true]
      exact Or.inr hrec

theorem hasSub_bye_of_leg_bye (t : List Char) (h : hasSub "leg bye" t = true) :
    hasSub "bye" t = true := by
  have e : "leg bye".data = "leg ".data ++ "bye".data := by decide
  unfold hasSub at h ⊢
  rw [e] at h
  exact containsSub_drop_front _ _ t h

set_option maxHeartbeats 1000000 in
/-- The `"leg bye"` branch of `extract_result` is dead code: any text that
contains `"leg bye"` also contains `"bye"`, and the `"bye"` test comes
first (src/main.py lines 74-77). -/
theorem extract_result_never_leg_bye (s : String) : extract_result s ≠ "leg bye" := by
  intro h
  simp only [extract_result] at h
  split_ifs at h with h1 h2 h3 h4 h5 h6 h7 h8 h9 h10 h11
  all_goals first
    | exact absurd h (by decide)
    | exact h10 (hasSub_bye_of_leg_bye _ h11)

/-! ### The four possible outcomes of processing one row -/

theorem processRow_skip_seen (sc : String) (s : CycleState) (r : Row)
    (h : commentary_id r ∈ s.seen_commentaries) : processRow sc s r = s := by
  unfold processRow
  simp [h]

theorem processRow_skip_generic (sc : String) (s : CycleState) (r : Row)
    (h : extract_result r.commentary_text = "event" ∨ r.over_num = "N/A") :
    processRow sc s r = s := by
  unfold processRow
  by_cases h1 : commentary_id r ∈ s.seen_commentaries
  · simp [h1]
  · simp [h1, h]

/-- A row whose parsed over is strictly below the watermark is skipped with
the state unchanged (the conditional raise of src/main.py lines 183-184 does
not fire, since the parsed over is not greater than the watermark). -/
theorem processRow_skip_low (sc : String) (s : CycleState) (r : Row)
    (h : over_to_float r.over_num < s.highest_over_seen) : processRow sc s r = s := by
  unfold processRow
  by_cases h1 : commentary_id r ∈ s.seen_commentaries
  · simp [h1]
  · by_cases h2 : extract_result r.commentary_text = "event" ∨ r.over_num = "N/A"
    · simp [h1, h2]
    · have hng : ¬ over_to_float r.over_num > s.highest_over_seen := not_lt_of_gt h
      simp [h1, h2, hng, h]

theorem processRow_admit (sc : String) (s : CycleState) (r : Row)
    (h1 : commentary_id r ∉ s.seen_commentaries)
    (h2 : extract_result r.commentary_text ≠ "event") (h3 : r.over_num ≠ "N/A")
    (h4 : s.highest_over_seen ≤ over_to_float r.over_num) :
    processRow sc s r =
      { seen_commentaries := s.seen_commentaries ++ [commentary_id r]
        highest_over_seen := over_to_float r.over_num
        new_commentaries := s.new_commentaries ++
          [{ over := r.over_num, commentary := r.commentary_text,
             result := extract_result r.commentary_text, score := sc }]
        new_commentary_found := true } := by
  unfold processRow
  rcases lt_or_eq_of_le h4 with hlt | heq
  · have hno : ¬ over_to_float r.over_num < over_to_float r.over_num := lt_irrefl _
    simp [h1, h2, h3, hlt, hno]
  · have hng : ¬ over_to_float r.over_num > s.highest_over_seen := by
      rw [← heq]
      exact lt_irrefl _
    have hno : ¬ over_to_float r.over_num < s.highest_over_seen := by
      rw [← heq]
      exact lt_irrefl _
    simp [h1, h2, h3, hng, hno, heq]

/-- Processing one row either leaves the cycle state unchanged — because the
identity key was already seen, or the row classified `"event"` / had over
text `"N/A"`, or its parsed over was below the watermark — or admits the
row, appending its key and event and setting the watermark to its parsed
over (src/main.py lines 176-194). -/
theorem processRow_cases (sc : String) (s : CycleState) (r : Row) :
    (commentary_id r ∈ s.seen_commentaries ∧ processRow sc s r = s) ∨
    ((extract_result r.commentary_text = "event" ∨ r.over_num = "N/A") ∧ processRow sc s r = s) ∨
    (over_to_float r.over_num < s.highest_over_seen ∧ processRow sc s r = s) ∨
    (commentary_id r ∉ s.seen_commentaries ∧
      extract_result r.commentary_text ≠ "event" ∧ r.over_num ≠ "N/A" ∧
      s.highest_over_seen ≤ over_to_float r.over_num ∧
      processRow sc s r =
        { seen_commentaries := s.seen_commentaries ++ [commentary_id r]
          highest_over_seen := over_to_float r.over_num
          new_commentaries := s.new_commentaries ++
            [{ over := r.over_num, commentary := r.commentary_text,
               result := extract_result r.commentary_text, score := sc }]
          new_commentary_found := true }) := by
  by_cases h1 : commentary_id r ∈ s.seen_commentaries
  · exact Or.inl ⟨h1, processRow_skip_seen sc s r h1⟩
  by_cases h2 : extract_result r.commentary_text = "event" ∨ r.over_num = "N/A"
  · exact Or.inr (Or.inl ⟨h2, processRow_skip_generic sc s r h2⟩)
  by_cases h3 : over_to_float r.over_num < s.highest_over_seen
  · exact Or.inr (Or.inr (Or.inl ⟨h3, processRow_skip_low sc s r h3⟩))
  push_neg at h2
  exact Or.inr (Or.inr (Or.inr
    ⟨h1, h2.1, h2.2, le_of_not_lt h3, processRow_admit sc s r h1 h2.1 h2.2 (le_of_not_lt h3)⟩))

/-! ### Growth and frame lemmas for the row loop -/

theorem processRow_seen_grows (sc : String) (s : CycleState) (r : Row) :
    ∃ t, (processRow sc s r).seen_commentaries = s.seen_commentaries ++ t := by
  rcases processRow_cases sc s r with ⟨_, h⟩ | ⟨_, h⟩ | ⟨_, h⟩ | ⟨_, _, _, _, h⟩
  · exact ⟨[], by simp [h]⟩
  · exact ⟨[], by simp [h]⟩
  · exact ⟨[], by simp [h]⟩
  · exact ⟨[commentary_id r], by simp [h]⟩

theorem processRow_new_grows (sc : String) (s : CycleState) (r : Row) :
    ∃ t, (processRow sc s r).new_commentaries = s.new_commentaries ++ t := by
  rcases processRow_cases sc s r with ⟨_, h⟩ | ⟨_, h⟩ | ⟨_, h⟩ | ⟨_, _, _, _, h⟩
  · exact ⟨[], by simp [h]⟩
  · exact ⟨[], by simp [h]⟩
  · exact ⟨[], by simp [h]⟩
  · exact ⟨_, by rw [h]⟩

/-- The watermark never decreases across one row (src/main.py lines 183-184
only ever raise it). -/
theorem processRow_highest_le (sc : String) (s : CycleState) (r : Row) :
    s.highest_over_seen ≤ (processRow sc s r).highest_over_seen := by
  rcases processRow_cases sc s r with ⟨_, h⟩ | ⟨_, h⟩ | ⟨_, h⟩ | ⟨_, _, _, h4, h⟩
  · simp [h]
  · simp [h]
  · simp [h]
  · rw [h]
    exact h4

theorem foldl_seen_grows (sc : String) :
    ∀ (rows : List Row) (a : CycleState),
      ∃ t, (rows.foldl (processRow sc) a).seen_commentaries = a.seen_commentaries ++ t := by
  intro rows
  induction rows with
  | nil => intro a; exact ⟨[], by simp⟩
  | cons r rest ih =>
    intro a
    obtain ⟨t2, h2⟩ := ih (processRow sc a r)
    obtain ⟨t1, h1⟩ := processRow_seen_grows sc a r
    exact ⟨t1 ++ t2, by simp [List.foldl_cons, h2, h1]⟩

theorem foldl_new_grows (sc : String) :
    ∀ (rows : List Row) (a : CycleState),
      ∃ t, (rows.foldl (processRow sc) a).new_commentaries = a.new_commentaries ++ t := by
  intro rows
  induction rows with
  | nil => intro a; exact ⟨[], by simp⟩
  | cons r rest ih =>
    intro a
    obtain ⟨t2, h2⟩ := ih (processRow sc a r)
    obtain ⟨t1, h1⟩ := processRow_new_grows sc a r
    exact ⟨t1 ++ t2, by simp [List.foldl_cons, h2, h1]⟩

theorem foldl_highest_le (sc : String) :
    ∀ (rows : List Row) (a : CycleState),
      a.highest_over_seen ≤ (rows.foldl (processRow sc) a).highest_over_seen := by
  intro rows
  induction rows with
  | nil => intro a; exact le_refl _
  | cons r rest ih =>
    intro a
    simp only [List.foldl_cons]
    exact le_trans (processRow_highest_le sc a r) (ih (processRow sc a r))

/-- A row loop that admits nothing changes nothing: every step was one of
the three skips, each of which leaves the state untouched. -/
theorem foldl_no_admission (sc : String) :
    ∀ (rows : List Row) (a : CycleState),
      (rows.foldl (processRow sc) a).new_commentaries = a.new_commentaries →
      rows.foldl (processRow sc) a = a := by
  intro rows
  induction rows with
  | nil => intro a _; rfl
  | cons r rest ih =>
    intro a h
    simp only [List.foldl_cons] at h ⊢
    rcases processRow_cases sc a r with ⟨_, he⟩ | ⟨_, he⟩ | ⟨_, he⟩ | ⟨_, _, _, _, he⟩
    · rw [he] at h ⊢
      exact ih a h
    · rw [he] at h ⊢
      exact ih a h
    · rw [he] at h ⊢
      exact ih a h
    · exfalso
      obtain ⟨t, ht⟩ := foldl_new_grows sc rest (processRow sc a r)
      rw [ht, he] at h
      have hlen := congrArg List.length h
      simp [List.length_append] at hlen

/-- The found flag tracks non-emptiness of the admitted list. -/
theorem foldl_found_iff (sc : String) :
    ∀ (rows : List Row) (a : CycleState),
      (a.new_commentary_found = true ↔ a.new_commentaries ≠ []) →
      ((rows.foldl (processRow sc) a).new_commentary_found = true ↔
        (rows.foldl (processRow sc) a).new_commentaries ≠ []) := by
  intro rows
  induction rows with
  | nil => intro a h; exact h
  | cons r rest ih =>
    intro a h
    simp only [List.foldl_cons]
    apply ih
    rcases processRow_cases sc a r with ⟨_, he⟩ | ⟨_, he⟩ | ⟨_, he⟩ | ⟨_, _, _, _, he⟩
    · rw [he]; exact h
    · rw [he]; exact h
    · rw [he]; exact h
    · rw [he]
      simp

/-- Replay: a state that dominates the end state of a row loop (it has seen
every key the loop ended with, and its watermark is at least the loop's
final watermark) skips every one of the same rows, changing nothing. -/
theorem foldl_replay (sc sc' : String) :
    ∀ (rows : List Row) (a b : CycleState),
      (∀ k ∈ (rows.foldl (processRow sc) a).seen_commentaries, k ∈ b.seen_commentaries) →
      (rows.foldl (processRow sc) a).highest_over_seen ≤ b.highest_over_seen →
      rows.foldl (processRow sc') b = b := by
  intro rows
  induction rows with
  | nil =>
    intro a b _ _
    rfl
  | cons r rest ih =>
    intro a b hseen hhigh
    simp only [List.foldl_cons] at hseen hhigh ⊢
    have hstep : processRow sc' b r = b := by
      rcases processRow_cases sc a r with ⟨hm, he⟩ | ⟨hg, he⟩ | ⟨hl, he⟩ | ⟨hm, hg, hn, hge, he⟩
      · apply processRow_skip_seen
        apply hseen
        obtain ⟨t, ht⟩ := foldl_seen_grows sc rest (processRow sc a r)
        rw [ht, he]
        exact List.mem_append_left _ hm
      · exact processRow_skip_generic sc' b r hg
      · apply processRow_skip_low
        calc over_to_float r.over_num < a.highest_over_seen := hl
          _ ≤ (rest.foldl (processRow sc) (processRow sc a r)).highest_over_seen := by
              rw [he]
              exact foldl_highest_le sc rest a
          _ ≤ b.highest_over_seen := hhigh
      · apply processRow_skip_seen
        apply hseen
        obtain ⟨t, ht⟩ := foldl_seen_grows sc rest (processRow sc a r)
        rw [ht, he]
        exact List.mem_append_left _ (List.mem_append_right _ (by simp))
    rw [hstep]
    exact ih (processRow sc a r) b hseen hhigh

/-! ### Ordering of admitted events -/

theorem chain_le_append_singleton (q : ℚ) :
    ∀ l : List ℚ, List.Chain' (· ≤ ·) l → (∀ x ∈ l, x ≤ q) →
      List.Chain' (· ≤ ·) (l ++ [q])
  | [], _, _ => by simp
  | [a], _, hle => by
    simp only [List.singleton_append]
    exact List.chain'_cons.mpr ⟨hle a (by simp), List.chain'_singleton q⟩
  | a :: b :: l, hc, hle => by
    have hc' := List.chain'_cons.mp hc
    have hrec := chain_le_append_singleton q (b :: l) hc'.2
      (fun x hx => hle x (List.mem_cons_of_mem _ hx))
    simp only [List.cons_append] at hrec ⊢
    exact List.chain'_cons.mpr ⟨hc'.1, hrec⟩

theorem chain_le_append_of_le :
    ∀ (l1 l2 : List ℚ), List.Chain' (· ≤ ·) l1 → List.Chain' (· ≤ ·) l2 →
      (∀ x ∈ l1, ∀ y ∈ l2, x ≤ y) → List.Chain' (· ≤ ·) (l1 ++ l2)
  | [], l2, _, h2, _ => by simpa
  | [a], l2, _, h2, hle => by
    cases l2 with
    | nil => simp
    | cons b l2' =>
      simp only [List.singleton_append]
      exact List.chain'_cons.mpr ⟨hle a (by simp) b (by simp), h2⟩
  | a :: b :: l1', l2, h1, h2, hle => by
    have h1' := List.chain'_cons.mp h1
    have hrec := chain_le_append_of_le (b :: l1') l2 h1'.2 h2
      (fun x hx y hy => hle x (List.mem_cons_of_mem _ hx) y hy)
    simp only [List.cons_append] at hrec ⊢
    exact List.chain'_cons.mpr ⟨h1'.1, hrec⟩

/-- The running invariant of one cycle's row loop, relative to the watermark
`h0` the loop started from: the admitted list is non-decreasing in parsed
over, each admitted over lies between `h0` and the current watermark, and
the watermark is at least `h0`. -/
def cycleInv (h0 : ℚ) (a : CycleState) : Prop :=
  List.Chain' (· ≤ ·) (a.new_commentaries.map pos) ∧
  (∀ e ∈ a.new_commentaries, h0 ≤ pos e ∧ pos e ≤ a.highest_over_seen) ∧
  h0 ≤ a.highest_over_seen

theorem foldl_cycleInv (sc : String) (h0 : ℚ) :
    ∀ (rows : List Row) (a : CycleState),
      cycleInv h0 a → cycleInv h0 (rows.foldl (processRow sc) a) := by
  intro rows
  induction rows with
  | nil => intro a h; exact h
  | cons r rest ih =>
    intro a h
    simp only [List.foldl_cons]
    apply ih
    rcases processRow_cases sc a r with ⟨_, he⟩ | ⟨_, he⟩ | ⟨_, he⟩ | ⟨_, _, _, hge, he⟩
    · rw [he]; exact h
    · rw [he]; exact h
    · rw [he]; exact h
    · obtain ⟨hchain, hbounds, hh0⟩ := h
      rw [he]
      refine ⟨?_, ?_, le_trans hh0 hge⟩
      · simp only [List.map_append, List.map_cons, List.map_nil]
        apply chain_le_append_singleton _ _ hchain
        intro x hx
        obtain ⟨e, he', rfl⟩ := List.mem_map.mp hx
        exact le_trans (hbounds e he').2 hge
      · intro e he'
        rcases List.mem_append.mp he' with h' | h'
        · exact ⟨(hbounds e h').1, le_trans (hbounds e h').2 hge⟩
        · simp only [List.mem_singleton] at h'
          subst h'
          exact ⟨le_trans hh0 hge, le_refl _⟩

/-! ### The per-cycle maximum (Python `max` with an over key) -/

theorem maxByOver_mem : ∀ (es : List Commentary) (e : Commentary), maxByOver e es ∈ e :: es := by
  intro es
  induction es with
  | nil => intro e; simp [maxByOver]
  | cons x xs ih =>
    intro e
    have hunf : maxByOver e (x :: xs) =
        maxByOver (if over_to_float x.over > over_to_float e.over then x else e) xs := by
      simp [maxByOver, List.foldl_cons]
    rw [hunf]
    have hmem := ih (if over_to_float x.over > over_to_float e.over then x else e)
    rcases List.mem_cons.mp hmem with h | h
    · rw [h]
      split_ifs <;> simp
    · exact List.mem_cons_of_mem _ (List.mem_cons_of_mem _ h)

theorem maxByOver_ge : ∀ (es : List Commentary) (e x : Commentary),
    x ∈ e :: es → over_to_float x.over ≤ over_to_float (maxByOver e es).over := by
  intro es
  induction es with
  | nil =>
    intro e x hx
    simp only [List.mem_singleton] at hx
    subst hx
    simp [maxByOver]
  | cons y ys ih =>
    intro e x hx
    have hunf : maxByOver e (y :: ys) =
        maxByOver (if over_to_float y.over > over_to_float e.over then y else e) ys := by
      simp [maxByOver, List.foldl_cons]
    rw [hunf]
    have hez : over_to_float e.over ≤
        over_to_float (if over_to_float y.over > over_to_float e.over then y else e).over := by
      split_ifs with hgt
      · exact le_of_lt hgt
      · exact le_refl _
    have hyz : over_to_float y.over ≤
        over_to_float (if over_to_float y.over > over_to_float e.over then y else e).over := by
      split_ifs with hgt
      · exact le_refl _
      · exact le_of_not_lt hgt
    have hz := ih (if over_to_float y.over > over_to_float e.over then y else e)
      (if over_to_float y.over > over_to_float e.over then y else e) (by simp)
    rcases List.mem_cons.mp hx with rfl | hx'
    · exact le_trans hez hz
    · rcases List.mem_cons.mp hx' with rfl | hx''
      · exact le_trans hyz hz
      · exact ih _ x (List.mem_cons_of_mem _ hx'')

/-! ### Cycle-level helpers -/

theorem processRows_eq_foldl (sc : String) (s : RunState) (rows : List Row) :
    processRows sc s rows = rows.foldl (processRow sc)
      { seen_commentaries := s.seen_commentaries
        highest_over_seen := s.highest_over_seen
        new_commentaries := []
        new_commentary_found := false } := rfl

theorem runCycle_fst_highest (en : Bool) (sc : String) (rows : List Row) (s : RunState) :
    (runCycle en sc rows s).1.highest_over_seen = (processRows sc s rows).highest_over_seen := rfl

theorem runCycle_fst_seen (en : Bool) (sc : String) (rows : List Row) (s : RunState) :
    (runCycle en sc rows s).1.seen_commentaries = evict (processRows sc s rows).seen_commentaries :=
  rfl

/-- The notification gate of one cycle (src/main.py lines 195-206): either
nothing passes and `last_sent_over` is unchanged with no dispatch, or the
cycle admitted events, the max-by-over event's over text differs from
`last_sent_over`, `last_sent_over` becomes that text, and the event is
dispatched exactly when Discord is enabled. -/
theorem runCycle_gate_cases (en : Bool) (sc : String) (rows : List Row) (s : RunState) :
    ((runCycle en sc rows s).1.last_sent_over = s.last_sent_over ∧ (runCycle en sc rows s).2 = []) ∨
    (∃ e es, (processRows sc s rows).new_commentaries = e :: es ∧
      s.last_sent_over ≠ some (maxByOver e es).over ∧
      (runCycle en sc rows s).1.last_sent_over = some (maxByOver e es).over ∧
      (runCycle en sc rows s).2 = if en then [maxByOver e es] else []) := by
  unfold runCycle
  rcases hn : (processRows sc s rows).new_commentaries with _ | ⟨e, es⟩
  · left
    simp [hn]
  · rcases hf : (processRows sc s rows).new_commentary_found with _ | _
    · left
      simp [hn, hf]
    · by_cases hg : s.last_sent_over = some (maxByOver e es).over
      · left
        simp [hn, hf, hg]
      · right
        refine ⟨e, es, rfl, hg, ?_, ?_⟩ <;> simp [hn, hf, hg]

theorem runCycle_snd_of_no_admission (en : Bool) (sc : String) (rows : List Row) (s : RunState)
    (h : (processRows sc s rows).new_commentaries = []) : (runCycle en sc rows s).2 = [] := by
  rcases runCycle_gate_cases en sc rows s with ⟨_, h2⟩ | ⟨e, es, hn, _⟩
  · exact h2
  · rw [h] at hn
    exact absurd hn (by simp)

/-- Replaying the same rows against the state a cycle ended with (absent
eviction) admits nothing. -/
theorem runCycle_replay (en : Bool) (sc : String) (rows : List Row) (s : RunState)
    (hlen : (processRows sc s rows).seen_commentaries.length ≤ 1000) :
    (processRows sc (runCycle en sc rows s).1 rows).new_commentaries = [] := by
  have hseen : (runCycle en sc rows s).1.seen_commentaries =
      (processRows sc s rows).seen_commentaries := by
    rw [runCycle_fst_seen]
    unfold evict
    rw [if_neg (by omega)]
  have hrep := foldl_replay sc sc rows
    { seen_commentaries := s.seen_commentaries
      highest_over_seen := s.highest_over_seen
      new_commentaries := []
      new_commentary_found := false }
    { seen_commentaries := (runCycle en sc rows s).1.seen_commentaries
      highest_over_seen := (runCycle en sc rows s).1.highest_over_seen
      new_commentaries := []
      new_commentary_found := false }
    (by
      intro k hk
      rw [hseen]
      exact hk)
    (by
      rw [runCycle_fst_highest]
      exact le_refl _)
  rw [processRows_eq_foldl, hrep]

theorem runCycles_highest_le (en : Bool) :
    ∀ (cycles : List CycleInput) (s : RunState),
      s.highest_over_seen ≤ (runCycles en s cycles).highest_over_seen := by
  intro cycles
  induction cycles with
  | nil => intro s; exact le_refl _
  | cons c cs ih =>
    intro s
    have h1 : s.highest_over_seen ≤
        (runCycle en c.current_score c.rows s).1.highest_over_seen := by
      rw [runCycle_fst_highest, processRows_eq_foldl]
      exact foldl_highest_le _ _ _
    exact le_trans h1 (ih _)

/-- Cross-cycle ordering: all events admitted over a run form a list whose
parsed overs are non-decreasing, and each is at least the watermark the run
segment started from. -/
theorem runTrace_ordered (en : Bool) :
    ∀ (cycles : List CycleInput) (s : RunState),
      List.Chain' (· ≤ ·) ((runTrace en s cycles).map pos) ∧
      ∀ x ∈ runTrace en s cycles, s.highest_over_seen ≤ pos x := by
  intro cycles
  induction cycles with
  | nil =>
    intro s
    constructor
    · simp [runTrace]
    · simp [runTrace]
  | cons c cs ih =>
    intro s
    have hinv : cycleInv s.highest_over_seen (processRows c.current_score s c.rows) := by
      rw [processRows_eq_foldl]
      exact foldl_cycleInv _ _ c.rows _ ⟨by simp, by simp, le_refl _⟩
    obtain ⟨hchain1, hbounds, hh0⟩ := hinv
    obtain ⟨hchain2, hlow2⟩ := ih (runCycle en c.current_score c.rows s).1
    have hhi : (runCycle en c.current_score c.rows s).1.highest_over_seen =
        (processRows c.current_score s c.rows).highest_over_seen :=
      runCycle_fst_highest _ _ _ _
    constructor
    · simp only [runTrace, List.map_append]
      apply chain_le_append_of_le _ _ hchain1 hchain2
      intro x hx y hy
      obtain ⟨ex, hex, rfl⟩ := List.mem_map.mp hx
      obtain ⟨ey, hey, rfl⟩ := List.mem_map.mp hy
      have h1 : pos ex ≤ (processRows c.current_score s c.rows).highest_over_seen :=
        (hbounds ex hex).2
      have h2 : (processRows c.current_score s c.rows).highest_over_seen ≤ pos ey := by
        rw [← hhi]
        exact hlow2 ey hey
      exact le_trans h1 h2
    · intro x hx
      simp only [runTrace, List.mem_append] at hx
      rcases hx with hx | hx
      · exact (hbounds x hx).1
      · have := hlow2 x hx
        rw [hhi] at this
        exact le_trans hh0 this

/-! ### Provenance of the dedup set's keys -/

/-- A key that can only have been written by admitting a row that survived
the classification filter (src/main.py lines 180-181). -/
def goodKey (k : String) : Prop :=
  ∃ r : Row, commentary_id r = k ∧
    extract_result r.commentary_text ≠ "event" ∧ r.over_num ≠ "N/A"

theorem foldl_goodKeys (sc : String) :
    ∀ (rows : List Row) (a : CycleState),
      (∀ k ∈ a.seen_commentaries, goodKey k) →
      ∀ k ∈ (rows.foldl (processRow sc) a).seen_commentaries, goodKey k := by
  intro rows
  induction rows with
  | nil => intro a h; exact h
  | cons r rest ih =>
    intro a h
    simp only [List.foldl_cons]
    apply ih
    rcases processRow_cases sc a r with ⟨_, he⟩ | ⟨_, he⟩ | ⟨_, he⟩ | ⟨_, hg, hn, _, he⟩
    · rw [he]; exact h
    · rw [he]; exact h
    · rw [he]; exact h
    · rw [he]
      intro k hk
      rcases List.mem_append.mp hk with hk | hk
      · exact h k hk
      · simp only [List.mem_singleton] at hk
        exact ⟨r, hk.symm, hg, hn⟩

theorem runCycles_goodKeys (en : Bool) :
    ∀ (cycles : List CycleInput) (s : RunState),
      (∀ k ∈ s.seen_commentaries, goodKey k) →
      ∀ k ∈ (runCycles en s cycles).seen_commentaries, goodKey k := by
  intro cycles
  induction cycles with
  | nil => intro s h; exact h
  | cons c cs ih =>
    intro s h
    apply ih
    intro k hk
    rw [runCycle_fst_seen] at hk
    have hk' : k ∈ (processRows c.current_score s c.rows).seen_commentaries := by
      revert hk
      unfold evict
      split_ifs
      · exact fun hk => List.drop_subset _ _ hk
      · exact fun hk => hk
    rw [processRows_eq_foldl] at hk'
    exact foldl_goodKeys _ _ _ h k hk'

/-! ### PageFetcher helper lemmas -/

theorem fetch_success_first (a : Nat → Option String) (c : String) (h : a 0 = some c) :
    fetch_page a = (some c, []) := by
  unfold fetch_page
  rw [fetch_loop]
  simp [h]

theorem fetch_success_second (a : Nat → Option String) (c : String)
    (h0 : a 0 = none) (h1 : a 1 = some c) : fetch_page a = (some c, [2]) := by
  unfold fetch_page
  rw [fetch_loop, fetch_loop]
  simp [h0, h1]

theorem fetch_success_third (a : Nat → Option String) (c : String)
    (h0 : a 0 = none) (h1 : a 1 = none) (h2 : a 2 = some c) :
    fetch_page a = (some c, [2, 4]) := by
  unfold fetch_page
  rw [fetch_loop, fetch_loop, fetch_loop]
  simp [h0, h1, h2]

theorem fetch_all_fail (a : Nat → Option String)
    (h0 : a 0 = none) (h1 : a 1 = none) (h2 : a 2 = none) :
    fetch_page a = (none, [2, 4]) := by
  unfold fetch_page
  rw [fetch_loop, fetch_loop, fetch_loop]
  simp [h0, h1, h2]

theorem fetch_agree (a b : Nat → Option String) (h : ∀ i, i < 3 → a i = b i) :
    fetch_page a = fetch_page b := by
  have h0 := h 0 (by omega)
  have h1 := h 1 (by omega)
  have h2 := h 2 (by omega)
  rcases ha0 : a 0 with _ | c
  · rcases ha1 : a 1 with _ | c
    · rcases ha2 : a 2 with _ | c
      · rw [fetch_all_fail a ha0 ha1 ha2,
          fetch_all_fail b (h0.symm.trans ha0) (h1.symm.trans ha1) (h2.symm.trans ha2)]
      · rw [fetch_success_third a c ha0 ha1 ha2,
          fetch_success_third b c (h0.symm.trans ha0) (h1.symm.trans ha1) (h2.symm.trans ha2)]
    · rw [fetch_success_second a c ha0 ha1,
        fetch_success_second b c (h0.symm.trans ha0) (h1.symm.trans ha1)]
  · rw [fetch_success_first a c ha0, fetch_success_first b c (h0.symm.trans ha0)]

/-! ## The claims -/

/-- C1: over any run, the watermark `highest_over_seen` never decreases
across a processed row (hence neither across cycles); the parsed positions
of the admitted events of a run from the initial state are non-decreasing in
admission order; and a row whose parsed position is strictly below the
watermark at the time it is evaluated is never admitted — processing it
leaves the whole cycle state (`new_commentaries` and `seen_commentaries`
included) unchanged. -/
theorem watermark_monotone_and_admission_ordered :
    (∀ (sc : String) (a : CycleState) (r : Row),
      a.highest_over_seen ≤ (processRow sc a r).highest_over_seen) ∧
    (∀ (en : Bool) (cycles : List CycleInput) (s : RunState),
      s.highest_over_seen ≤ (runCycles en s cycles).highest_over_seen) ∧
    (∀ (en : Bool) (cycles : List CycleInput),
      List.Chain' (· ≤ ·) ((runTrace en initialState cycles).map pos)) ∧
    (∀ (sc : String) (a : CycleState) (r : Row),
      over_to_float r.over_num < a.highest_over_seen → processRow sc a r = a) :=
  ⟨processRow_highest_le,
   fun en cycles s => runCycles_highest_le en cycles s,
   fun en cycles => (runTrace_ordered en cycles initialState).1,
   processRow_skip_low⟩

/-- C2 counterexample: the claim quantifies over every (position-text,
description-text) pair, but the pair ("1", "hello") is classified `"event"`
on both encounters, so feeding it twice admits zero events — not exactly
one. -/
theorem dedup_twice_zero_admissions :
    (processRows "Score not found" initialState
      [{ over_num := "1", commentary_text := "hello" },
       { over_num := "1", commentary_text := "hello" }]).new_commentaries.length ≠ 1 := by
  decide

/-- C2 amended: feeding the same (position-text, description-text) pair
twice in sequence admits AT MOST one event (exactly one precisely when the
first occurrence is admitted): admitting inserts the identity key into
`seen_commentaries`, a row whose key is present is skipped before
classification, and a skipped row leaves the state unchanged — so
processing the same row a second time is the identity, and one row adds at
most one event. -/
theorem dedup_idempotent_at_most_one :
    (∀ (sc : String) (a : CycleState) (r : Row),
      processRow sc (processRow sc a r) r = processRow sc a r) ∧
    (∀ (sc : String) (a : CycleState) (r : Row),
      (processRow sc a r).new_commentaries.length ≤ a.new_commentaries.length + 1) := by
  constructor
  · intro sc a r
    rcases processRow_cases sc a r with ⟨_, he⟩ | ⟨_, he⟩ | ⟨_, he⟩ | ⟨_, _, _, _, he⟩
    · rw [he]
      exact he
    · rw [he]
      exact he
    · rw [he]
      exact he
    · rw [he]
      apply processRow_skip_seen
      simp
  · intro sc a r
    rcases processRow_cases sc a r with ⟨_, he⟩ | ⟨_, he⟩ | ⟨_, he⟩ | ⟨_, _, _, _, he⟩
    · rw [he]
      exact Nat.le_succ _
    · rw [he]
      exact Nat.le_succ _
    · rw [he]
      exact Nat.le_succ _
    · rw [he]
      simp

/-- C3 counterexample: the notification gate compares over TEXTS, not
parsed positions.  After notifying for over text "5" (parsed position 5), a
cycle admitting one event with over text "5.0" — the same parsed position —
dispatches a second notification even though the maximal admitted position
did not advance beyond the last notified position. -/
theorem notify_same_position_twice :
    over_to_float "5.0" = over_to_float "5" ∧
    (runCycle true "sc" [{ over_num := "5", commentary_text := "four!" }]
        initialState).1.last_sent_over = some "5" ∧
    (runCycle true "sc" [{ over_num := "5.0", commentary_text := "six!" }]
        (runCycle true "sc" [{ over_num := "5", commentary_text := "four!" }]
          initialState).1).2 ≠ [] := by
  decide

/-- C3 amended: per cycle at most one notification is dispatched, only for
an event of maximal parsed position among that cycle's admitted events,
only when Discord is enabled, and only when that event's over TEXT (not its
parsed position) differs from `last_sent_over`; a cycle that admits no
events — in particular a repeat of an identical document against the
previous cycle's end state, absent eviction — dispatches none.  (Two over
texts with equal parsed positions, e.g. "5" and "5.0", can each be
notified; see the counterexample.) -/
theorem notification_gate_spec :
    (∀ (en : Bool) (sc : String) (rows : List Row) (s : RunState),
      (runCycle en sc rows s).2.length ≤ 1) ∧
    (∀ (en : Bool) (sc : String) (rows : List Row) (s : RunState),
      ∀ ev ∈ (runCycle en sc rows s).2,
        en = true ∧
        ev ∈ (processRows sc s rows).new_commentaries ∧
        (∀ x ∈ (processRows sc s rows).new_commentaries, pos x ≤ pos ev) ∧
        s.last_sent_over ≠ some ev.over) ∧
    (∀ (en : Bool) (sc : String) (rows : List Row) (s : RunState),
      (processRows sc s rows).new_commentaries = [] → (runCycle en sc rows s).2 = []) ∧
    (∀ (en : Bool) (sc : String) (rows : List Row) (s : RunState),
      (processRows sc s rows).seen_commentaries.length ≤ 1000 →
      (processRows sc (runCycle en sc rows s).1 rows).new_commentaries = [] ∧
      (runCycle en sc rows (runCycle en sc rows s).1).2 = []) := by
  refine ⟨?_, ?_, ?_, ?_⟩
  · intro en sc rows s
    rcases runCycle_gate_cases en sc rows s with ⟨_, h2⟩ | ⟨e, es, _, _, _, hs⟩
    · simp [h2]
    · rw [hs]
      split_ifs <;> simp
  · intro en sc rows s ev hev
    rcases runCycle_gate_cases en sc rows s with ⟨_, h2⟩ | ⟨e, es, hn, hg, _, hs⟩
    · rw [h2] at hev
      exact absurd hev (by simp)
    · rw [hs] at hev
      cases en with
      | false => simp at hev
      | true =>
        simp only [if_true, List.mem_singleton] at hev
        subst hev
        refine ⟨rfl, ?_, ?_, hg⟩
        · rw [hn]
          exact maxByOver_mem es e
        · intro x hx
          rw [hn] at hx
          exact maxByOver_ge es e x hx
  · intro en sc rows s h
    exact runCycle_snd_of_no_admission en sc rows s h
  · intro en sc rows s hlen
    refine ⟨runCycle_replay en sc rows s hlen, ?_⟩
    exact runCycle_snd_of_no_admission _ _ _ _ (runCycle_replay en sc rows s hlen)

/-- C4: the classifier's concrete priorities — `"wicket"`/`"out"` first,
then `"no run"`, `"1 run"`, `"2 run"`, `"3 run"`, `"four"`/`"4 runs"`,
`"six"`/`"6 runs"`, `"wide"`, `"no ball"`, `"bye"`, `"leg bye"`, else
`"event"` — on the spec's five examples (the code's category strings are
"wicket"/"dot"/"1 run"/"4" and "bye" for wicket/dot/one/four/bye), and the
shadowing defect: the `"leg bye"` branch is unreachable for every input,
because any text containing `"leg bye"` contains `"bye"`, which is tested
first. -/
theorem classify_fixed_priority :
    extract_result "OUT! clean bowled" = "wicket" ∧
    extract_result "FOUR! cracking shot" = "4" ∧
    extract_result "1 run taken" = "1 run" ∧
    extract_result "just a dot ball, no run" = "dot" ∧
    extract_result "leg bye taken" = "bye" ∧
    ∀ s : String, extract_result s ≠ "leg bye" :=
  ⟨by decide, by decide, by decide, by decide, by decide, extract_result_never_leg_bye⟩

/-- C5 counterexample: "abc" fails the numeric parse and coerces to the
sentinel -1, but in the initial state the watermark is also -1, the skip
test `-1 < -1` fails, and the row IS admitted — the claim's "never admitted,
including the initial state" is false. -/
theorem unparseable_admitted_at_initial_state :
    over_to_float "abc" = -1 ∧
    initialState.highest_over_seen = -1 ∧
    (processRows "sc" initialState
      [{ over_num := "abc", commentary_text := "four!" }]).new_commentaries.length = 1 := by
  decide

/-- C5 amended: `over_to_float` returns the sentinel -1 on every parse
failure; the sentinel is strictly below every successfully parsed
non-negative position; and an event with unparseable position text is
filtered by the watermark comparison in every state whose watermark has
risen strictly above the initial sentinel -1 — but not in a state whose
watermark is still -1, where it can be admitted (see the counterexample). -/
theorem sentinel_filtering_after_advance :
    (∀ t : String, parseFloat? t = none → over_to_float t = -1) ∧
    (∀ (t : String) (q : ℚ), parseFloat? t = some q → 0 ≤ q →
      over_to_float t = q ∧ -1 < q) ∧
    (∀ (sc : String) (a : CycleState) (r : Row),
      parseFloat? r.over_num = none → -1 < a.highest_over_seen →
      processRow sc a r = a) := by
  refine ⟨?_, ?_, ?_⟩
  · intro t h
    unfold over_to_float
    rw [h]
  · intro t q h hq
    constructor
    · unfold over_to_float
      rw [h]
    · linarith
  · intro sc a r h hgt
    apply processRow_skip_low
    have hv : over_to_float r.over_num = -1 := by
      unfold over_to_float
      rw [h]
    rw [hv]
    exact hgt

/-- C6 counterexample: in the reachable run state after one cycle on the
single row ("abc", "four!"), `seen_commentaries` contains the identity key
of an event whose position text "abc" failed to parse — the claim's "never
contains such a key" is false. -/
theorem unparseable_key_reaches_seen :
    parseFloat? "abc" = none ∧
    commentary_id { over_num := "abc", commentary_text := "four!" } ∈
      (runCycles false initialState
        [{ current_score := "sc",
           rows := [{ over_num := "abc", commentary_text := "four!" }] }]).seen_commentaries := by
  decide

/-- C6 amended: every key ever held by `seen_commentaries` in a reachable
run state is the identity key of an admitted row, which is never classified
`"event"` and never has over text `"N/A"` — but a row with any OTHER
unparseable position text (coerced to the sentinel -1) can be admitted, and
its key stored, while the watermark is still at the initial -1; once the
watermark exceeds -1, processing such a row leaves `seen_commentaries`
unchanged. -/
theorem seen_keys_from_admitted_rows :
    (∀ (en : Bool) (cycles : List CycleInput),
      ∀ k ∈ (runCycles en initialState cycles).seen_commentaries,
        ∃ r : Row, commentary_id r = k ∧
          extract_result r.commentary_text ≠ "event" ∧ r.over_num ≠ "N/A") ∧
    (∀ (sc : String) (a : CycleState) (r : Row),
      over_to_float r.over_num = -1 → -1 < a.highest_over_seen →
      (processRow sc a r).seen_commentaries = a.seen_commentaries) := by
  constructor
  · intro en cycles k hk
    exact runCycles_goodKeys en cycles initialState (by simp [initialState]) k hk
  · intro sc a r hneg hgt
    rw [processRow_skip_low sc a r (by rw [hneg]; exact hgt)]

/-- C7 counterexample: with Discord disabled, a run's single cycle
dispatches nothing, yet `last_sent_over` becomes `some "5"` — it does not
equal the position of the last dispatched event (there is none), and it
changed without any dispatch. -/
theorem last_sent_changes_without_dispatch :
    (runCycle false "sc" [{ over_num := "5", commentary_text := "four!" }]
      initialState).2 = [] ∧
    (runCycle false "sc" [{ over_num := "5", commentary_text := "four!" }]
      initialState).1.last_sent_over = some "5" := by
  decide

/-- C7 amended: `last_sent_over` tracks the over text of the last
cycle-maximum event that passed the text-differs gate, and it is updated
whether or not Discord is enabled (with Discord disabled nothing is ever
dispatched, yet `last_sent_over` still changes).  When Discord IS enabled
throughout, a cycle changes `last_sent_over` exactly when it dispatches a
notification, and then sets it to the dispatched event's over text. -/
theorem last_sent_tracks_text_gate :
    ∀ (sc : String) (rows : List Row) (s : RunState),
      ((runCycle true sc rows s).1.last_sent_over ≠ s.last_sent_over ↔
        (runCycle true sc rows s).2 ≠ []) ∧
      (∀ ev ∈ (runCycle true sc rows s).2,
        (runCycle true sc rows s).1.last_sent_over = some ev.over) ∧
      (runCycle false sc rows s).2 = [] := by
  intro sc rows s
  refine ⟨?_, ?_, ?_⟩
  · rcases runCycle_gate_cases true sc rows s with ⟨h1, h2⟩ | ⟨e, es, _, hg, hl, hs⟩
    · rw [h1, h2]
      simp
    · rw [hl, hs]
      exact iff_of_true (fun hc => hg hc.symm) (by simp)
  · intro ev hev
    rcases runCycle_gate_cases true sc rows s with ⟨_, h2⟩ | ⟨e, es, _, _, hl, hs⟩
    · rw [h2] at hev
      exact absurd hev (by simp)
    · rw [hs] at hev
      simp only [if_true, List.mem_singleton] at hev
      subst hev
      exact hl
  · rcases runCycle_gate_cases false sc rows s with ⟨_, h2⟩ | ⟨e, es, _, _, _, hs⟩
    · exact h2
    · rw [hs]
      simp

/-- C8: the page fetcher consults at most the first 3 attempts (its result
is unchanged if attempts 3, 4, … change); a success on the first, second or
third attempt returns that attempt's content, sleeping 2 then 4 time-units
between consecutive failed attempts (strictly increasing back-off); and
after all 3 attempts fail it returns the failure value `none` — having
slept only between attempts, never after the final one. -/
theorem fetch_retry_backoff :
    (∀ (a : Nat → Option String) (c : String), a 0 = some c →
      fetch_page a = (some c, [])) ∧
    (∀ (a : Nat → Option String) (c : String), a 0 = none → a 1 = some c →
      fetch_page a = (some c, [2])) ∧
    (∀ (a : Nat → Option String) (c : String), a 0 = none → a 1 = none → a 2 = some c →
      fetch_page a = (some c, [2, 4])) ∧
    (∀ a : Nat → Option String, a 0 = none → a 1 = none → a 2 = none →
      fetch_page a = (none, [2, 4])) ∧
    (∀ a b : Nat → Option String, (∀ i, i < 3 → a i = b i) →
      fetch_page a = fetch_page b) :=
  ⟨fetch_success_first, fetch_success_second, fetch_success_third, fetch_all_fail, fetch_agree⟩

/-- C10: a cycle that admits no event, and whose dedup set holds at most
1000 keys at the end-of-cycle eviction check, leaves the entire cross-cycle
state — `seen_commentaries`, `highest_over_seen` and `last_sent_over` —
unchanged and dispatches nothing; in particular a row whose identity key is
already in `seen_commentaries` never raises the watermark, whatever its
parsed position. -/
theorem no_admission_frame :
    (∀ (en : Bool) (sc : String) (rows : List Row) (s : RunState),
      (processRows sc s rows).new_commentaries = [] →
      (processRows sc s rows).seen_commentaries.length ≤ 1000 →
      runCycle en sc rows s = (s, [])) ∧
    (∀ (sc : String) (a : CycleState) (r : Row),
      commentary_id r ∈ a.seen_commentaries → processRow sc a r = a) := by
  constructor
  · intro en sc rows s hnew hlen
    have hfold : processRows sc s rows =
        { seen_commentaries := s.seen_commentaries
          highest_over_seen := s.highest_over_seen
          new_commentaries := []
          new_commentary_found := false } := by
      rw [processRows_eq_foldl] at hnew ⊢
      exact foldl_no_admission sc rows _ hnew
    rw [hfold] at hlen
    have hlen' : s.seen_commentaries.length ≤ 1000 := hlen
    simp only [runCycle, hfold, evict]
    rw [if_neg (by omega)]
  · intro sc a r h
    exact processRow_skip_seen sc a r h

end Cricket
